import Mathlib

/-!
Verification of the casclik constraint-to-QP compilation pipeline.

The development shallowly embeds the two core source files,
`skill_specification.py` and `controllers/reactive_qp.py`.  The symbolic
expression engine (casadi) is an external capability: a constraint's
symbolic expression is therefore represented by its numeric value and its
Jacobians with respect to the declared variables at the current state
(all entries are rationals), and the matrix operations the assembler uses
(`horzcat`, `vertcat`, `diag`, slicing) are given executable list-based
realizations.  Every operation of the assembler is linear in those
matrices, so the embedding at the evaluated level is faithful.
-/

namespace Casclik

/-- The value of a (column) vector expression at the current state. -/
abbrev Vec := List ℚ

/-- The value of a matrix expression at the current state, row major. -/
abbrev Mat := List (List ℚ)

/-- Pointwise vector addition (casadi `+` on equally sized vectors). -/
def vecAdd (a b : Vec) : Vec := List.zipWith (· + ·) a b

/-- Pointwise vector subtraction. -/
def vecSub (a b : Vec) : Vec := List.zipWith (fun x y => x - y) a b

/-- Pointwise negation (casadi unary minus). -/
def vecNeg (a : Vec) : Vec := a.map (fun x => -x)

/-- Scalar multiplication of a vector (casadi `mtimes` with scalar gain). -/
def smul (g : ℚ) (v : Vec) : Vec := v.map (fun x => g * x)

/-- Horizontal concatenation of two matrices with equal row counts
(casadi `horzcat`). -/
def horzcat2 (A B : Mat) : Mat := List.zipWith (· ++ ·) A B

/-- An r-by-c matrix of zeros (casadi `DM.zeros`). -/
def zerosMat (r c : Nat) : Mat :=
  List.replicate r (List.replicate c (0 : ℚ))

/-- The matrix `slack_mat` of `get_constraints_expr`: a k-by-nslack zero
matrix whose column slice `[ind, ind+k)` was assigned `-eye(k)`
(reactive_qp.py lines 231-233).  In every reachable call
`ind + k ≤ nslack`, so writing entry `(i, ind+i)` directly coincides with
the slice assignment. -/
def slackMat (k nslack ind : Nat) : Mat :=
  (List.range k).map (fun i =>
    (List.range nslack).map (fun j => if j = ind + i then (-1 : ℚ) else 0))

/-- Modelled from the spec: the four Constraint variants of section 3
(constraints.py is not under src/).  Position-level variants carry a
scalar feedback gain; the set variants carry vector bounds and the
velocity-equality variant a vector target, all as values at the current
state. -/
inductive ConstraintKind where
  | equality (gain : ℚ)
  | setC (gain : ℚ) (set_min set_max : Vec)
  | velocityEquality (target : Vec)
  | velocitySet (set_min set_max : Vec)
deriving Repr, DecidableEq

/-- Modelled from the spec: a Constraint has a label, an integer priority,
a hard/soft classification (a string in the source, compared against
"soft"), and an expression.  The expression is represented by its value
`expression` together with its Jacobians `jac_robot`, `jac_virtual`
(matrices) and `jac_time` (a column, time is scalar) at the current
state, which is exactly the data `get_constraints_expr` consumes via
`cnstr.expression` and `cnstr.jacobian(var)`. -/
structure Constraint where
  label : String
  priority : Int
  constraint_type : String
  expression : Vec
  jac_robot : Mat
  jac_virtual : Mat
  jac_time : Vec
  kind : ConstraintKind
deriving Repr, DecidableEq

instance : Inhabited Constraint :=
  ⟨⟨"", 0, "hard", [], [], [], [], ConstraintKind.equality 0⟩⟩

/-- The row dimension of the constraint: `cnstr.expression.size()[0]`. -/
def Constraint.rows (c : Constraint) : Nat := c.expression.length

/-- The skill specification state the controller reads.  `virtual_var` is
`none` when the skill declares no virtual variable, otherwise it carries
the symbol's dimension; `slack_var` likewise carries the dimension of the
allocated slack symbol. -/
structure SkillSpecification where
  label : String
  n_robot_var : Nat
  virtual_var : Option Nat
  constraints : List Constraint
  n_slack_var : Nat
  slack_var : Option Nat
deriving Repr

/-- `n_virtual_var` as maintained by the `virtual_var` setter
(skill_specification.py lines 91-98): the symbol's first dimension, or 0
when the variable is `None`. -/
def SkillSpecification.n_virtual_var (s : SkillSpecification) : Nat :=
  match s.virtual_var with
  | some d => d
  | none => 0

/-- The sort performed by the constraints setter
(skill_specification.py line 141): Python's `sorted` with key
`cnstr.priority` is the stable nondecreasing sort, embedded as
`List.mergeSort`. -/
def sortedConstraints (cnstr_list : List Constraint) : List Constraint :=
  cnstr_list.mergeSort (fun a b => decide (a.priority ≤ b.priority))

/-- The slack-dimension accumulation loop of the constraints setter
(skill_specification.py lines 143-147). -/
def slackTotal (l : List Constraint) : Nat :=
  l.foldl
    (fun acc c =>
      if c.constraint_type = "soft" then acc + c.expression.length else acc)
    0

/-- The constraints setter (skill_specification.py lines 139-152): sort
the assigned list by priority, recompute `n_slack_var` from the soft
constraints, and allocate a fresh `slack_var` symbol of that dimension,
or `None` when the dimension is zero. -/
def SkillSpecification.setConstraints (s : SkillSpecification)
    (cnstr_list : List Constraint) : SkillSpecification :=
  let sorted := sortedConstraints cnstr_list
  let n := slackTotal sorted
  { s with
    constraints := sorted
    n_slack_var := n
    slack_var := if n ≠ 0 then some n else none }

/-- Construction of a skill specification (`SkillSpecification.__init__`):
record the declared variables and run the constraints setter on the
assigned list. -/
def mkSkill (label : String) (n_robot_var : Nat) (virtual_var : Option Nat)
    (cnstr_list : List Constraint) : SkillSpecification :=
  SkillSpecification.setConstraints
    ⟨label, n_robot_var, virtual_var, [], 0, none⟩ cnstr_list

/-- The class-level regularization constant `weight_shifter = 0.001` of
`ReactiveQPController` (reactive_qp.py line 44), the mu of the eTaSL
cost. -/
def weight_shifter : ℚ := 1 / 1000

/-- The controller state the cost builder and the assembler read: the
skill and the three weight vectors (their values at the current
state). -/
structure ReactiveQPController where
  skill_spec : SkillSpecification
  robot_var_weights : Vec
  virtual_var_weights : Vec
  slack_var_weights : Vec

/-- Diagonal matrix from a vector (casadi `diag`). -/
def diag : Vec → Mat
  | [] => []
  | x :: xs =>
      (x :: List.replicate xs.length 0) ::
        (diag xs).map (fun row => (0 : ℚ) :: row)

/-- `get_cost_expr` (reactive_qp.py lines 172-186): stack the scaled
weight blocks (the virtual block only when `n_virtual_var > 0`, the
slack block only when `n_slack_var > 0`) and place them on a
diagonal. -/
def ReactiveQPController.get_cost_expr (c : ReactiveQPController) : Mat :=
  let nvirt := c.skill_spec.n_virtual_var
  let nslack := c.skill_spec.n_slack_var
  let mu := weight_shifter
  let opt_weights :=
    [smul mu c.robot_var_weights]
      ++ (if nvirt > 0 then [smul mu c.virtual_var_weights] else [])
      ++ (if nslack > 0 then [smul (1 + mu) c.slack_var_weights] else [])
  diag opt_weights.flatten

/-- The row block `A*opt_var` of one constraint before slack columns
(reactive_qp.py lines 207-210): the Jacobian with respect to
`robot_var`, horizontally concatenated with the Jacobian with respect to
`virtual_var` when the skill declares a virtual variable. -/
def cnstr_expr_base (virtual_var : Option Nat) (c : Constraint) : Mat :=
  match virtual_var with
  | none => c.jac_robot
  | some _ => horzcat2 c.jac_robot c.jac_virtual

/-- The lower-bound rows of one constraint (reactive_qp.py lines
212-228): the feedforward `-jacobian(time_var)` plus the variant
term. -/
def lb_expr (c : Constraint) : Vec :=
  let f := vecNeg c.jac_time
  match c.kind with
  | ConstraintKind.equality gain =>
      vecAdd f (vecNeg (smul gain c.expression))
  | ConstraintKind.setC gain set_min _set_max =>
      vecAdd f (smul gain (vecSub set_min c.expression))
  | ConstraintKind.velocityEquality target => vecAdd f target
  | ConstraintKind.velocitySet set_min _set_max => vecAdd f set_min

/-- The upper-bound rows of one constraint (reactive_qp.py lines
212-228). -/
def ub_expr (c : Constraint) : Vec :=
  let f := vecNeg c.jac_time
  match c.kind with
  | ConstraintKind.equality gain =>
      vecAdd f (vecNeg (smul gain c.expression))
  | ConstraintKind.setC gain _set_min set_max =>
      vecAdd f (smul gain (vecSub set_max c.expression))
  | ConstraintKind.velocityEquality target => vecAdd f target
  | ConstraintKind.velocitySet _set_min set_max => vecAdd f set_max

/-- The constraint loop of `get_constraints_expr` (reactive_qp.py lines
204-239), with the running slack column index `slack_ind` made an
explicit argument: for each constraint build its row block, append the
slack columns when the skill has slack (a zero block carrying `-eye(k)`
in the constraint's own slice for a soft constraint, advancing
`slack_ind` by its row count), and collect the per-constraint blocks and
bound rows in order. -/
def assembleBlocks (virtual_var : Option Nat) (n_slack : Nat) :
    List Constraint → Nat → List Mat × List Vec × List Vec
  | [], _ => ([], [], [])
  | c :: rest, slack_ind =>
      let k := c.expression.length
      let ce0 := cnstr_expr_base virtual_var c
      let ce :=
        if n_slack > 0 then
          if c.constraint_type = "soft" then
            horzcat2 ce0 (slackMat k n_slack slack_ind)
          else
            horzcat2 ce0 (zerosMat k n_slack)
        else ce0
      let ind' :=
        if n_slack > 0 ∧ c.constraint_type = "soft" then slack_ind + k
        else slack_ind
      let tail := assembleBlocks virtual_var n_slack rest ind'
      (ce :: tail.1, lb_expr c :: tail.2.1, ub_expr c :: tail.2.2)

/-- `get_constraints_expr` (reactive_qp.py lines 188-243): run the
constraint loop from slack index 0 and stack the collected blocks
vertically (casadi `vertcat`). -/
def get_constraints_expr (s : SkillSpecification) : Mat × Vec × Vec :=
  let blocks := assembleBlocks s.virtual_var s.n_slack_var s.constraints 0
  (blocks.1.flatten, blocks.2.1.flatten, blocks.2.2.flatten)

/-- The compiled problem the per-tick solve reads: the skill, the four
compiled numeric functions produced by `setup_problem_functions`
(external casadi `Function` objects, modelled as functions from the list
of current values to their outputs), and the QP solver instance
(external, modelled as a function from the evaluated `(H, A, Blb, Bub)`
to the decision vector `res["x"]`). -/
structure CompiledProblem where
  skill_spec : SkillSpecification
  H_func : List Vec → Mat
  A_func : List Vec → Mat
  Blb_func : List Vec → Vec
  Bub_func : List Vec → Vec
  solver : Mat → Mat → Vec → Vec → Vec

/-- The result of one solve call: the stored solver result `self.res`
and the returned command(s). -/
structure SolveResult where
  res : Vec
  robot_vel : Vec
  virtual_vel : Option Vec
deriving Repr, DecidableEq

/-- `solve` (reactive_qp.py lines 335-354): collect the current values,
evaluate the compiled functions, call the solver, and slice the decision
vector: the first `n_robot_var` entries are returned always, and the
next `n_virtual_var` entries are additionally returned exactly when
`n_virtual_var > 0`.  The source performs no dimension check on its
numeric inputs. -/
def CompiledProblem.solve (p : CompiledProblem) (time_var : ℚ)
    (robot_var : Vec) (virtual_var : Option Vec) (input_var : Option Vec) :
    SolveResult :=
  let currvals := [[time_var], robot_var]
    ++ (match virtual_var with | some v => [v] | none => [])
    ++ (match input_var with | some v => [v] | none => [])
  let H := p.H_func currvals
  let A := p.A_func currvals
  let Blb := p.Blb_func currvals
  let Bub := p.Bub_func currvals
  let x := p.solver H A Blb Bub
  let nrob := p.skill_spec.n_robot_var
  let nvirt := p.skill_spec.n_virtual_var
  if nvirt > 0 then
    ⟨x, x.take nrob, some ((x.drop nrob).take nvirt)⟩
  else
    ⟨x, x.take nrob, none⟩

/-- A Python value stored in an options dictionary. -/
inductive OVal where
  | str (v : String)
  | bool (v : Bool)
  | int (v : Int)
  | dict (entries : List (String × OVal))

/-- An options dictionary: association list in insertion order. -/
abbrev ODict := List (String × OVal)

/-- Dictionary lookup, `opt[key]` / `key in opt`. -/
def dlookup : ODict → String → Option OVal
  | [], _ => none
  | (k, v) :: rest, key => if k = key then some v else dlookup rest key

/-- The Python idiom `if key not in d: d[key] = v`: append the pair when
the key is absent. -/
def dsetdefault (d : ODict) (key : String) (v : OVal) : ODict :=
  if (dlookup d key).isSome then d else d ++ [(key, v)]

/-- Dictionary assignment `d[key] = v`: replace in place, appending when
the key is new. -/
def dset : ODict → String → OVal → ODict
  | [], key, v => [(key, v)]
  | (k, v') :: rest, key, v =>
      if k = key then (key, v) :: rest else (k, v') :: dset rest key v

/-- The sub-dictionary stored under a key (`opt["solver_opts"]` after it
was ensured to exist). -/
def dgetdict (d : ODict) (key : String) : ODict :=
  match dlookup d key with
  | some (OVal.dict entries) => entries
  | _ => []

/-- The options setter (reactive_qp.py lines 136-170): replace a missing
or non-dict argument by an empty dict, default `solver_name` to
"qpoases", and fill the solver and function option sub-dictionaries with
their defaults.  Python mutates `opt["solver_opts"]` through an alias;
the functional embedding writes the updated sub-dictionary back. -/
def options_setter (opt0 : Option ODict) : ODict :=
  let opt := match opt0 with | none => [] | some d => d
  let opt := dsetdefault opt "solver_name" (OVal.str "qpoases")
  let opt := dsetdefault opt "solver_opts" (OVal.dict [])
  let so := dgetdict opt "solver_opts"
  let so := dsetdefault so "print_time" (OVal.bool false)
  let so :=
    match dlookup opt "solver_name" with
    | some (OVal.str name) =>
        if name = "qpoases" then
          dsetdefault so "printLevel" (OVal.str "none")
        else if name = "ooqp" then
          dsetdefault so "print_level" (OVal.int 0)
        else so
    | _ => so
  let so := dsetdefault so "jit" (OVal.bool true)
  let so := dsetdefault so "jit_options"
    (OVal.dict [("compiler", OVal.str "shell"), ("flags", OVal.str "-O2")])
  let opt := dset opt "solver_opts" (OVal.dict so)
  let opt := dsetdefault opt "function_opts" (OVal.dict [])
  let fo := dgetdict opt "function_opts"
  let fo := dsetdefault fo "jit" (OVal.bool true)
  let fo := dsetdefault fo "compiler" (OVal.str "shell")
  let fo := dsetdefault fo "print_time" (OVal.bool false)
  let fo := dsetdefault fo "jit_options"
    (OVal.dict [("compiler", OVal.str "gcc"), ("flags", OVal.str "-O2")])
  dset opt "function_opts" (OVal.dict fo)

/-- The solver instance built by `setup_solver`: the casadi `conic` call
is external, so the record keeps the arguments the source passes to it:
the instance name, the chosen plugin, the sparsity sizes of `H` and `A`,
and the solver options. -/
structure ConicSolver where
  name : String
  plugin : String
  h_size : Nat × Nat
  a_size : Nat × Nat
  opts : ODict

/-- The size of a matrix value (rows, columns of the first row). -/
def matSize (M : Mat) : Nat × Nat :=
  (M.length, match M with | [] => 0 | r :: _ => r.length)

/-- `setup_solver` (reactive_qp.py lines 245-259): build the cost and
constraint expressions, ensure `solver_opts` exists, and allocate the
conic solver.  The plugin argument is the literal string "qpoases" in
the source (line 256); the options entry `solver_name` is not read. -/
def ReactiveQPController.setup_solver (c : ReactiveQPController)
    (options : ODict) : ConicSolver :=
  let H := c.get_cost_expr
  let blocks := get_constraints_expr c.skill_spec
  let options := dsetdefault options "solver_opts" (OVal.dict [])
  ⟨"solver", "qpoases", matSize H, matSize blocks.1,
    dgetdict options "solver_opts"⟩

/-- A Python value assigned to a weight setter: `None`, a casadi matrix
(with its two sizes), a list, a numpy array, or a value of any other
type such as a plain scalar float. -/
inductive PyWeights where
  | pynone
  | cmat (size1 size2 : Nat) (vals : List ℚ)
  | pylist (vals : List ℚ)
  | nparray (vals : List ℚ)
  | scalar (x : ℚ)
  | other (tag : String)
deriving Repr, DecidableEq

/-- The weight setter shared shape of `robot_var_weights`
(reactive_qp.py lines 65-80), `virtual_var_weights` (89-104) and
`slack_var_weights` (113-128); the three differ only in the dimension
`n` they validate against.  `None` becomes a ones vector of dimension
`n`; a casadi matrix must be a column of height `n` and is stored as is;
a list or numpy array must have length `n` and is stored vertically
concatenated; any other value falls through every `isinstance` branch
and is stored unchanged. -/
def set_var_weights (n : Nat) (w : PyWeights) : Except String PyWeights :=
  match w with
  | PyWeights.pynone => Except.ok (PyWeights.cmat n 1 (List.replicate n 1))
  | PyWeights.cmat s1 s2 v =>
      if s2 ≠ 1 then Except.error "weights must be a vector."
      else if s1 ≠ n then
        Except.error "weights and var dimensions do not match."
      else Except.ok (PyWeights.cmat s1 s2 v)
  | PyWeights.pylist v =>
      if v.length ≠ n then
        Except.error "weights and var dimensions do not match"
      else Except.ok (PyWeights.cmat v.length 1 v)
  | PyWeights.nparray v =>
      if v.length ≠ n then
        Except.error "weights and var dimensions do not match"
      else Except.ok (PyWeights.cmat v.length 1 v)
  | PyWeights.scalar x => Except.ok (PyWeights.scalar x)
  | PyWeights.other t => Except.ok (PyWeights.other t)

/-- The claim's feedforward term: `f = -(Jacobian of the expression with
respect to time_var)`. -/
def feedforward (c : Constraint) : Vec := vecNeg c.jac_time

/-- The claim's lower-bound rows, stated from the spec text: Equality
`f - gain*expression`; Set `f + gain*(set_min - expression)`;
VelocityEquality `f + target`; VelocitySet `f + set_min`. -/
def spec_lower_bound (c : Constraint) : Vec :=
  match c.kind with
  | ConstraintKind.equality gain =>
      vecSub (feedforward c) (smul gain c.expression)
  | ConstraintKind.setC gain set_min _set_max =>
      vecAdd (feedforward c) (smul gain (vecSub set_min c.expression))
  | ConstraintKind.velocityEquality target => vecAdd (feedforward c) target
  | ConstraintKind.velocitySet set_min _set_max =>
      vecAdd (feedforward c) set_min

/-- The claim's upper-bound rows, stated from the spec text: Equality
`f - gain*expression`; Set `f + gain*(set_max - expression)`;
VelocityEquality `f + target`; VelocitySet `f + set_max`. -/
def spec_upper_bound (c : Constraint) : Vec :=
  match c.kind with
  | ConstraintKind.equality gain =>
      vecSub (feedforward c) (smul gain c.expression)
  | ConstraintKind.setC gain _set_min set_max =>
      vecAdd (feedforward c) (smul gain (vecSub set_max c.expression))
  | ConstraintKind.velocityEquality target => vecAdd (feedforward c) target
  | ConstraintKind.velocitySet _set_min set_max =>
      vecAdd (feedforward c) set_max

/-- Entry `(i, j)` of a matrix value, 0 outside the stored rows. -/
def Mat.entry (M : Mat) (i j : Nat) : ℚ := (M.getD i []).getD j 0

/-- The claim's diagonal cost entry over the concatenated decision
vector: `mu*robot_weights` on the robot block, `mu*virtual_weights` on
the virtual block, `(1+mu)*slack_weights` on the slack block. -/
def spec_cost_entry (nrob nvirt : Nat) (wr wv ws : Vec) (i : Nat) : ℚ :=
  if i < nrob then weight_shifter * wr.getD i 0
  else if i < nrob + nvirt then weight_shifter * wv.getD (i - nrob) 0
  else (1 + weight_shifter) * ws.getD (i - nrob - nvirt) 0

/-- Well-formedness of a constraint's represented expression data for a
skill with `nrob` robot and `nvirt` virtual variables: the Jacobians
have one row per expression row with the variable's dimension many
columns, the time Jacobian is one column entry per row, and the variant
fields match the expression's row dimension. -/
def Constraint.WF (nrob nvirt : Nat) (c : Constraint) : Prop :=
  c.jac_robot.length = c.rows
  ∧ (∀ row ∈ c.jac_robot, row.length = nrob)
  ∧ c.jac_virtual.length = c.rows
  ∧ (∀ row ∈ c.jac_virtual, row.length = nvirt)
  ∧ c.jac_time.length = c.rows
  ∧ (match c.kind with
     | ConstraintKind.equality _ => True
     | ConstraintKind.setC _ set_min set_max =>
         set_min.length = c.rows ∧ set_max.length = c.rows
     | ConstraintKind.velocityEquality target => target.length = c.rows
     | ConstraintKind.velocitySet set_min set_max =>
         set_min.length = c.rows ∧ set_max.length = c.rows)

instance (nrob nvirt : Nat) (c : Constraint) :
    Decidable (Constraint.WF nrob nvirt c) := by
  unfold Constraint.WF
  cases c.kind <;> exact inferInstance

/-- The claim's slack column offset for the constraint at position `i`:
the cumulative row count of the soft constraints appearing earlier in
the ordered constraint sequence. -/
def soft_rows_before (l : List Constraint) (i : Nat) : Nat :=
  (((l.take i).filter (fun c => c.constraint_type = "soft")).map
    Constraint.rows).sum

/-- The claim's slack column block for one constraint: a soft constraint
with `k` rows gets `-Identity(k)` in its own contiguous reserved column
range `[off, off+k)` and zeros elsewhere; a hard constraint gets zeros
in every slack column. -/
def spec_slack_block (nslack off : Nat) (c : Constraint) : Mat :=
  if c.constraint_type = "soft" then
    (List.range c.rows).map (fun i =>
      List.replicate off (0 : ℚ)
        ++ (List.range c.rows).map (fun j => if j = i then (-1 : ℚ) else 0)
        ++ List.replicate (nslack - off - c.rows) (0 : ℚ))
  else zerosMat c.rows nslack

/-- The claim's constraint matrix: each constraint's row block is its
Jacobian block extended by its slack column block at the claim's offset,
and the blocks are stacked in order. -/
def spec_A (virtual_var : Option Nat) (nslack : Nat) (l : List Constraint) :
    Mat :=
  (List.zipWith
    (fun i c =>
      horzcat2 (cnstr_expr_base virtual_var c)
        (spec_slack_block nslack (soft_rows_before l i) c))
    (List.range l.length) l).flatten

/-- The two-dimensional demo skill used to evaluate the solve call on a
dimension-mismatched input: no constraints, no virtual variable. -/
def skillC8 : SkillSpecification := mkSkill "demo" 2 none []

/-- A compiled problem over `skillC8` whose external functions are
constant and whose solver returns the decision vector `[5, 7]`. -/
def problemC8 : CompiledProblem :=
  ⟨skillC8,
    fun _ => [[weight_shifter, 0], [0, weight_shifter]],
    fun _ => [], fun _ => [], fun _ => [],
    fun _ _ _ _ => [5, 7]⟩

/-- The one-dimensional controller used to evaluate `setup_solver`. -/
def ctrlC9 : ReactiveQPController := ⟨mkSkill "s" 1 none [], [1], [], []⟩


/-- The dimension of an optional variable symbol: 0 when absent. -/
def optDim : Option Nat → Nat
  | some d => d
  | none => 0

/-- The concatenated diagonal-weight vector built by `get_cost_expr`:
the scaled robot weights, then the scaled virtual weights when present,
then the scaled slack weights when present. -/
def cost_vec (nvirt nslack : Nat) (wr wv ws : Vec) : Vec :=
  smul weight_shifter wr
    ++ ((if nvirt > 0 then [smul weight_shifter wv] else []).flatten
      ++ (if nslack > 0 then [smul (1 + weight_shifter) ws] else []).flatten)

/-- The slack rows contributed by a prefix of the constraint list, one
summand per constraint: its row count when soft, 0 when hard. -/
def softRows (l : List Constraint) : Nat :=
  (l.map (fun c => if c.constraint_type = "soft" then c.rows else 0)).sum

section Lemmas

lemma slackTotal_go (l : List Constraint) (acc : Nat) :
    l.foldl
        (fun acc c =>
          if c.constraint_type = "soft" then acc + c.expression.length
          else acc)
        acc
      = acc
        + ((l.filter (fun c => c.constraint_type = "soft")).map
            Constraint.rows).sum := by
  induction l generalizing acc with
  | nil => simp
  | cons c rest ih =>
      by_cases h : c.constraint_type = "soft"
      · simp [h, ih, Constraint.rows]
        omega
      · simp [h, ih]

lemma slackTotal_eq_sum (l : List Constraint) :
    slackTotal l
      = ((l.filter (fun c => c.constraint_type = "soft")).map
          Constraint.rows).sum := by
  simpa using slackTotal_go l 0

lemma priority_trans : ∀ (a b c : Constraint),
    decide (a.priority ≤ b.priority) = true →
    decide (b.priority ≤ c.priority) = true →
    decide (a.priority ≤ c.priority) = true := by
  intro a b c hab hbc
  simp only [decide_eq_true_eq] at *
  omega

lemma priority_total : ∀ (a b : Constraint),
    (decide (a.priority ≤ b.priority)
      || decide (b.priority ≤ a.priority)) = true := by
  intro a b
  simp only [Bool.or_eq_true, decide_eq_true_eq]
  omega

lemma sortedConstraints_of_sorted {l : List Constraint}
    (h : l.Pairwise
      (fun a b => decide (a.priority ≤ b.priority) = true)) :
    sortedConstraints l = l :=
  List.mergeSort_of_sorted h

end Lemmas

/-- Claim C5: after assigning any constraint list, `n_slack_var` is the
sum of the expression row dimensions of exactly the soft constraints (a
skill with one hard 3-row Set constraint and one soft 2-row Equality
constraint has `n_slack_var = 2`), and `slack_var` is a fresh symbol of
dimension `n_slack_var` when that is nonzero, `None` when it is zero. -/
theorem claim_C5 (label : String) (nrob : Nat) (vv : Option Nat)
    (l : List Constraint) :
    (mkSkill label nrob vv l).n_slack_var =
      ((l.filter (fun c => c.constraint_type = "soft")).map
        Constraint.rows).sum
    ∧ ((mkSkill label nrob vv l).n_slack_var ≠ 0 →
        (mkSkill label nrob vv l).slack_var =
          some (mkSkill label nrob vv l).n_slack_var)
    ∧ ((mkSkill label nrob vv l).n_slack_var = 0 →
        (mkSkill label nrob vv l).slack_var = none)
    ∧ (mkSkill "ex" 3 none
        [⟨"hard_set", 0, "hard", [0, 0, 0], [], [], [],
           ConstraintKind.setC 1 [0, 0, 0] [1, 1, 1]⟩,
         ⟨"soft_eq", 1, "soft", [0, 0], [], [], [],
           ConstraintKind.equality 1⟩]).n_slack_var = 2 := by
  have hmain : (mkSkill label nrob vv l).n_slack_var =
      ((l.filter (fun c => c.constraint_type = "soft")).map
        Constraint.rows).sum := by
    show slackTotal (sortedConstraints l) = _
    rw [slackTotal_eq_sum]
    exact List.Perm.sum_eq
      (List.Perm.map _ (List.Perm.filter _ (List.mergeSort_perm l _)))
  have hex : (mkSkill "ex" 3 none
      [⟨"hard_set", 0, "hard", [0, 0, 0], [], [], [],
         ConstraintKind.setC 1 [0, 0, 0] [1, 1, 1]⟩,
       ⟨"soft_eq", 1, "soft", [0, 0], [], [], [],
         ConstraintKind.equality 1⟩]).n_slack_var = 2 := by
    show slackTotal (sortedConstraints _) = 2
    rw [sortedConstraints_of_sorted (by decide)]
    decide
  refine ⟨hmain, ?_, ?_, hex⟩
  · intro h
    have h' : slackTotal (sortedConstraints l) ≠ 0 := h
    show (if slackTotal (sortedConstraints l) ≠ 0 then
        some (slackTotal (sortedConstraints l)) else none) =
      some (mkSkill label nrob vv l).n_slack_var
    rw [if_pos h']
    rfl
  · intro h
    have h' : slackTotal (sortedConstraints l) = 0 := h
    show (if slackTotal (sortedConstraints l) ≠ 0 then
        some (slackTotal (sortedConstraints l)) else none) = none
    rw [if_neg (by simp [h'])]

/-- Claim C5 witness: a concrete skill with a single soft two-row
equality constraint gets `n_slack_var = 2` and a slack symbol of
dimension 2. -/
theorem claim_C5_witness :
    (mkSkill "w" 1 none
      [⟨"soft_eq", 0, "soft", [0, 0], [], [], [],
         ConstraintKind.equality 1⟩]).n_slack_var =
      ((([⟨"soft_eq", 0, "soft", [0, 0], [], [], [],
          ConstraintKind.equality 1⟩] :
        List Constraint).filter
          (fun c => c.constraint_type = "soft")).map Constraint.rows).sum
    ∧ (mkSkill "w" 1 none
        [⟨"soft_eq", 0, "soft", [0, 0], [], [], [],
           ConstraintKind.equality 1⟩]).slack_var =
      some (mkSkill "w" 1 none
        [⟨"soft_eq", 0, "soft", [0, 0], [], [], [],
           ConstraintKind.equality 1⟩]).n_slack_var :=
  ⟨(claim_C5 "w" 1 none _).1,
   (claim_C5 "w" 1 none _).2.1 (by
    show slackTotal (sortedConstraints _) ≠ 0
    rw [sortedConstraints_of_sorted (by decide)]
    decide)⟩

/-- Claim C6: the stored constraint sequence is sorted in nondecreasing
priority order, and constraints of equal priority keep their relative
order from the input list (the per-priority filters are unchanged). -/
theorem claim_C6 (label : String) (nrob : Nat) (vv : Option Nat)
    (l : List Constraint) :
    List.Pairwise (fun a b : Constraint => a.priority ≤ b.priority)
      (mkSkill label nrob vv l).constraints
    ∧ ∀ p : Int,
        (mkSkill label nrob vv l).constraints.filter
            (fun c => decide (c.priority = p)) =
          l.filter (fun c => decide (c.priority = p)) := by
  have hc : (mkSkill label nrob vv l).constraints =
      l.mergeSort (fun a b => decide (a.priority ≤ b.priority)) := rfl
  rw [hc]
  constructor
  · exact (List.sorted_mergeSort priority_trans priority_total l).imp
      (fun h => of_decide_eq_true h)
  · intro p
    have hpw : (l.filter (fun c => decide (c.priority = p))).Pairwise
        (fun a b : Constraint =>
          decide (a.priority ≤ b.priority) = true) := by
      apply List.pairwise_of_forall_mem_list
      intro a ha b hb
      have ha' := List.of_mem_filter ha
      have hb' := List.of_mem_filter hb
      simp only [decide_eq_true_eq] at *
      omega
    have hsub : List.Sublist (l.filter (fun c => decide (c.priority = p)))
        (l.mergeSort (fun a b => decide (a.priority ≤ b.priority))) :=
      List.sublist_mergeSort priority_trans priority_total hpw
        (List.filter_sublist l)
    have h2 := hsub.filter (fun c => decide (c.priority = p))
    rw [List.filter_filter] at h2
    simp only [Bool.and_self] at h2
    have hperm :=
      (List.mergeSort_perm l
        (fun a b => decide (a.priority ≤ b.priority))).filter
        (fun c => decide (c.priority = p))
    exact (h2.eq_of_length hperm.length_eq.symm).symm

/-- Claim C7: the solve call always returns the first `n_robot_var`
entries of the solver's decision vector as the robot command, returns
the next `n_virtual_var` entries as the virtual command exactly when
`n_virtual_var > 0`, and the returned commands together are exactly the
first `n_robot_var + n_virtual_var` entries, so slack entries are never
part of the command. -/
theorem claim_C7 (p : CompiledProblem) (t : ℚ) (rv : Vec)
    (vv iv : Option Vec) :
    (p.solve t rv vv iv).robot_vel =
      (p.solve t rv vv iv).res.take p.skill_spec.n_robot_var
    ∧ ((p.solve t rv vv iv).virtual_vel.isSome ↔
        0 < p.skill_spec.n_virtual_var)
    ∧ (p.solve t rv vv iv).robot_vel
        ++ ((p.solve t rv vv iv).virtual_vel.getD []) =
      (p.solve t rv vv iv).res.take
        (p.skill_spec.n_robot_var + p.skill_spec.n_virtual_var) := by
  unfold CompiledProblem.solve
  by_cases h : p.skill_spec.n_virtual_var > 0
  · simp [h, List.take_add]
  · have h0 : p.skill_spec.n_virtual_var = 0 := by omega
    simp [h, h0]

/-- Claim C10: the weight setters perform a dimension check only for
`None`, casadi-matrix, list and numpy-array values; a value of any other
type, such as a plain scalar, is stored unchanged with no check for
every declared dimension `n`, while lists, arrays and matrices of
mismatched dimension are rejected. -/
theorem claim_C10 (n : Nat) (x : ℚ) (tag : String) (v : List ℚ)
    (s1 s2 : Nat) (w : List ℚ) (hv : v.length ≠ n) (hm : s1 ≠ n) :
    set_var_weights n (PyWeights.scalar x) =
      Except.ok (PyWeights.scalar x)
    ∧ set_var_weights n (PyWeights.other tag) =
        Except.ok (PyWeights.other tag)
    ∧ set_var_weights n (PyWeights.pylist v) =
        Except.error "weights and var dimensions do not match"
    ∧ set_var_weights n (PyWeights.nparray v) =
        Except.error "weights and var dimensions do not match"
    ∧ (set_var_weights n (PyWeights.cmat s1 s2 w)).isOk = false := by
  refine ⟨rfl, rfl, ?_, ?_, ?_⟩
  · simp [set_var_weights, hv]
  · simp [set_var_weights, hv]
  · by_cases h2 : s2 = 1
    · simp [set_var_weights, h2, hm, Except.isOk, Except.toBool]
    · simp [set_var_weights, h2, Except.isOk, Except.toBool]

/-- Claim C10 witness: with declared dimension 3, a scalar weight 1/2 is
stored unchanged while the two-element list is rejected. -/
theorem claim_C10_witness :
    set_var_weights 3 (PyWeights.scalar (1 / 2)) =
      Except.ok (PyWeights.scalar (1 / 2))
    ∧ set_var_weights 3 (PyWeights.other "obj") =
        Except.ok (PyWeights.other "obj")
    ∧ set_var_weights 3 (PyWeights.pylist [1, 2]) =
        Except.error "weights and var dimensions do not match"
    ∧ set_var_weights 3 (PyWeights.nparray [1, 2]) =
        Except.error "weights and var dimensions do not match"
    ∧ (set_var_weights 3 (PyWeights.cmat 2 1 [1, 2])).isOk = false :=
  claim_C10 3 (1 / 2) "obj" [1, 2] 2 1 [1, 2] (by decide) (by decide)


/-- Claim C8 evaluation: the skill declares `n_robot_var = 2`, the
supplied `robot_var` value has dimension 1, yet `solve` invokes the
solver and returns its command; no dimension check rejects the call
before the solver runs (reactive_qp.py lines 335-354 contain no such
check). -/
theorem claim_C8_code_bug :
    skillC8.n_robot_var = 2
    ∧ ([(1 : ℚ) / 2] : Vec).length ≠ skillC8.n_robot_var
    ∧ problemC8.solve 0 [1 / 2] none none =
        ⟨[5, 7], [5, 7], none⟩ := by
  refine ⟨rfl, by decide, ?_⟩
  rfl


/-- Claim C9 evaluation: with options requesting the recognized
non-default backend "ooqp", the options setter keeps
`solver_name = "ooqp"`, yet the solver instance built by `setup_solver`
uses the hardcoded "qpoases" plugin (reactive_qp.py line 256), and no
configuration error is raised anywhere for the solver name. -/
theorem claim_C9_code_bug :
    dlookup (options_setter (some [("solver_name", OVal.str "ooqp")]))
        "solver_name" = some (OVal.str "ooqp")
    ∧ (ctrlC9.setup_solver
        (options_setter (some [("solver_name", OVal.str "ooqp")]))).plugin =
      "qpoases"
    ∧ "qpoases" ≠ "ooqp" := by
  refine ⟨rfl, rfl, by decide⟩

section BoundLemmas

lemma zipWith_add_map_neg (a b : List ℚ) :
    List.zipWith (· + ·) a (b.map (fun x => -x)) =
      List.zipWith (fun x y => x - y) a b := by
  induction a generalizing b with
  | nil => simp
  | cons x xs ih => cases b <;> simp [ih, sub_eq_add_neg]

lemma vecAdd_vecNeg (a b : Vec) : vecAdd a (vecNeg b) = vecSub a b :=
  zipWith_add_map_neg a b

lemma lb_expr_eq_spec (c : Constraint) : lb_expr c = spec_lower_bound c := by
  unfold lb_expr spec_lower_bound feedforward
  cases c.kind <;> simp [vecAdd_vecNeg]

lemma ub_expr_eq_spec (c : Constraint) : ub_expr c = spec_upper_bound c := by
  unfold ub_expr spec_upper_bound feedforward
  cases c.kind <;> simp [vecAdd_vecNeg]

lemma assembleBlocks_lb (vv : Option Nat) (ns : Nat) :
    ∀ (l : List Constraint) (ind : Nat),
      (assembleBlocks vv ns l ind).2.1 = l.map lb_expr := by
  intro l
  induction l with
  | nil => intro ind; rfl
  | cons c rest ih => intro ind; simp [assembleBlocks, ih]

lemma assembleBlocks_ub (vv : Option Nat) (ns : Nat) :
    ∀ (l : List Constraint) (ind : Nat),
      (assembleBlocks vv ns l ind).2.2 = l.map ub_expr := by
  intro l
  induction l with
  | nil => intro ind; rfl
  | cons c rest ih => intro ind; simp [assembleBlocks, ih]

end BoundLemmas

/-- Claim C1: for every constraint assembled by `get_constraints_expr`,
the stacked lower and upper bound rows are exactly the spec's formulas
around the feedforward term `f = -(Jacobian of the expression with
respect to time_var)`: Equality has both bounds `f - gain*expression`,
Set has `f + gain*(set_min - expression)` and
`f + gain*(set_max - expression)`, VelocityEquality has both bounds
`f + target`, and VelocitySet has `f + set_min` and `f + set_max`. -/
theorem claim_C1 (s : SkillSpecification) :
    (get_constraints_expr s).2.1 =
      (s.constraints.map spec_lower_bound).flatten
    ∧ (get_constraints_expr s).2.2 =
      (s.constraints.map spec_upper_bound).flatten := by
  show ((assembleBlocks s.virtual_var s.n_slack_var s.constraints 0).2.1.flatten = _)
    ∧ ((assembleBlocks s.virtual_var s.n_slack_var s.constraints 0).2.2.flatten = _)
  rw [assembleBlocks_lb, assembleBlocks_ub,
    funext lb_expr_eq_spec, funext ub_expr_eq_spec]
  exact ⟨rfl, rfl⟩


section CostLemmas

lemma getD_append_left (l l' : List ℚ) (i : Nat) (h : i < l.length) :
    (l ++ l').getD i 0 = l.getD i 0 := by
  induction l generalizing i with
  | nil => simp at h
  | cons x xs ih =>
      cases i with
      | zero => rfl
      | succ i' => simpa using ih i' (by simpa using h)

lemma getD_append_right (l l' : List ℚ) (i : Nat) (h : l.length ≤ i) :
    (l ++ l').getD i 0 = l'.getD (i - l.length) 0 := by
  induction l generalizing i with
  | nil => simp
  | cons x xs ih =>
      cases i with
      | zero => simp at h
      | succ i' => simpa using ih i' (by simpa using h)

lemma smul_length (g : ℚ) (v : Vec) : (smul g v).length = v.length :=
  List.length_map v _

lemma smul_getD (g : ℚ) (v : Vec) (i : Nat) :
    (smul g v).getD i 0 = g * v.getD i 0 := by
  induction v generalizing i with
  | nil => simp [smul]
  | cons x xs ih =>
      cases i with
      | zero => rfl
      | succ i' => simpa [smul] using ih i'

lemma diag_length (v : Vec) : (diag v).length = v.length := by
  induction v with
  | nil => rfl
  | cons x xs ih => simp [diag, ih]

lemma diag_rows (v : Vec) : ∀ row ∈ diag v, row.length = v.length := by
  induction v with
  | nil => simp [diag]
  | cons x xs ih =>
      intro row hrow
      simp only [diag, List.mem_cons, List.mem_map] at hrow
      rcases hrow with h | ⟨r, hr, rfl⟩
      · subst h; simp
      · simpa using ih r hr

lemma entry_map_cons (l : Mat) :
    ∀ (i j : Nat),
      ((l.map (fun row => (0 : ℚ) :: row)).getD i []).getD j 0 =
        (match j with
         | 0 => (0 : ℚ)
         | Nat.succ j' => (l.getD i []).getD j' 0) := by
  induction l with
  | nil => intro i j; cases j <;> simp
  | cons r rs ih =>
      intro i j
      cases i with
      | zero => cases j <;> simp
      | succ i' => simpa using ih i' j

lemma diag_entry (v : Vec) :
    ∀ i j, Mat.entry (diag v) i j =
      if i = j ∧ i < v.length then v.getD i 0 else 0 := by
  induction v with
  | nil => intro i j; simp [diag, Mat.entry]
  | cons x xs ih =>
      intro i j
      cases i with
      | zero =>
          cases j with
          | zero => simp [diag, Mat.entry]
          | succ j' =>
              simp only [diag, Mat.entry, List.getD_cons_zero,
                List.getD_cons_succ]
              rw [List.getD_eq_getElem?_getD]
              rcases Nat.lt_or_ge j' xs.length with h | h
              · simp [List.getElem?_replicate, h]
              · simp [List.getElem?_eq_none (by simpa using h)]
      | succ i' =>
          have hmc := entry_map_cons (diag xs) i' j
          cases j with
          | zero =>
              simp only [Mat.entry, diag, List.getD_cons_succ] at *
              rw [hmc]
              simp
          | succ j' =>
              simp only [Mat.entry, diag, List.getD_cons_succ] at *
              rw [hmc]
              have := ih i' j'
              simp only [Mat.entry] at this
              rw [this]
              by_cases hij : i' = j' <;> simp [hij, Nat.succ_lt_succ_iff]

lemma cost_vec_len (nrob nvirt nslack : Nat) (wr wv ws : Vec)
    (hr : wr.length = nrob) (hv : wv.length = nvirt)
    (hs : ws.length = nslack) :
    (cost_vec nvirt nslack wr wv ws).length = nrob + nvirt + nslack := by
  unfold cost_vec
  by_cases h1 : nvirt > 0 <;> by_cases h2 : nslack > 0 <;>
    simp [h1, h2, smul_length, hr, hv, hs] <;> omega

lemma cost_vec_getD (nrob nvirt nslack : Nat) (wr wv ws : Vec)
    (hr : wr.length = nrob) (hv : wv.length = nvirt)
    (_hs : ws.length = nslack) (i : Nat) (hi : i < nrob + nvirt + nslack) :
    (cost_vec nvirt nslack wr wv ws).getD i 0 =
      spec_cost_entry nrob nvirt wr wv ws i := by
  unfold cost_vec spec_cost_entry
  rcases Nat.lt_or_ge i nrob with hc1 | hc1
  · rw [getD_append_left _ _ _ (by rw [smul_length, hr]; exact hc1),
      smul_getD, if_pos hc1]
  · rw [getD_append_right _ _ _ (by rw [smul_length, hr]; exact hc1),
      smul_length, hr, if_neg (show ¬ i < nrob by omega)]
    rcases Nat.lt_or_ge i (nrob + nvirt) with hc2 | hc2
    · have h1 : nvirt > 0 := by omega
      rw [if_pos hc2, if_pos h1]
      simp only [List.flatten_cons, List.flatten_nil, List.append_nil]
      rw [getD_append_left _ _ _ (by rw [smul_length, hv]; omega), smul_getD]
    · have h2 : nslack > 0 := by omega
      rw [if_neg (show ¬ i < nrob + nvirt by omega), if_pos h2]
      by_cases h1 : nvirt > 0
      · rw [if_pos h1]
        simp only [List.flatten_cons, List.flatten_nil, List.append_nil]
        rw [getD_append_right _ _ _ (by rw [smul_length, hv]; omega),
          smul_length, hv, smul_getD]
      · have h1' : nvirt = 0 := by omega
        rw [if_neg h1]
        simp only [List.flatten_nil, List.nil_append, List.flatten_cons,
          List.append_nil]
        rw [smul_getD, h1', Nat.sub_zero]

end CostLemmas

/-- Claim C2: the cost builder returns the diagonal matrix over the
concatenated decision vector whose diagonal is `mu*robot_weights`,
then `mu*virtual_weights` when the virtual block is present
(`n_virtual_var > 0`), then `(1+mu)*slack_weights` when the slack block
is present (`n_slack_var > 0`), with the weight shifter `mu` defaulting
to 0.001. -/
theorem claim_C2 (s : SkillSpecification) (wr wv ws : Vec)
    (hr : wr.length = s.n_robot_var)
    (hv : wv.length = s.n_virtual_var)
    (hs : ws.length = s.n_slack_var) :
    weight_shifter = 1 / 1000
    ∧ (ReactiveQPController.get_cost_expr ⟨s, wr, wv, ws⟩).length =
        s.n_robot_var + s.n_virtual_var + s.n_slack_var
    ∧ (∀ row ∈ ReactiveQPController.get_cost_expr ⟨s, wr, wv, ws⟩,
        row.length = s.n_robot_var + s.n_virtual_var + s.n_slack_var)
    ∧ ∀ i j, i < s.n_robot_var + s.n_virtual_var + s.n_slack_var →
        j < s.n_robot_var + s.n_virtual_var + s.n_slack_var →
        Mat.entry (ReactiveQPController.get_cost_expr ⟨s, wr, wv, ws⟩) i j =
          if i = j then
            spec_cost_entry s.n_robot_var s.n_virtual_var wr wv ws i
          else 0 := by
  have hw : (ReactiveQPController.get_cost_expr ⟨s, wr, wv, ws⟩) =
      diag (cost_vec s.n_virtual_var s.n_slack_var wr wv ws) := by
    show diag _ = diag _
    congr 1
    unfold cost_vec
    simp [List.flatten_append]
  have hlen := cost_vec_len s.n_robot_var s.n_virtual_var s.n_slack_var
    wr wv ws hr hv hs
  refine ⟨rfl, ?_, ?_, ?_⟩
  · rw [hw, diag_length, hlen]
  · intro row hrow
    rw [hw] at hrow
    rw [diag_rows _ row hrow, hlen]
  · intro i j hi hj
    rw [hw, diag_entry, hlen]
    by_cases hij : i = j
    · rw [if_pos ⟨hij, by omega⟩, if_pos hij]
      exact cost_vec_getD s.n_robot_var s.n_virtual_var s.n_slack_var
        wr wv ws hr hv hs i hi
    · rw [if_neg (by tauto), if_neg hij]

/-- Claim C2 witness: with the 2-DOF skill, robot weights `[1, 1]` and no
virtual or slack block, the cost matrix is `diag(0.001, 0.001)`. -/
theorem claim_C2_witness :
    weight_shifter = 1 / 1000
    ∧ (ReactiveQPController.get_cost_expr
        ⟨⟨"w2", 2, none, [], 0, none⟩, [1, 1], [], []⟩).length = 2 + 0 + 0
    ∧ Mat.entry (ReactiveQPController.get_cost_expr
        ⟨⟨"w2", 2, none, [], 0, none⟩, [1, 1], [], []⟩) 0 0 = 1 / 1000
    ∧ Mat.entry (ReactiveQPController.get_cost_expr
        ⟨⟨"w2", 2, none, [], 0, none⟩, [1, 1], [], []⟩) 0 1 = 0
    ∧ Mat.entry (ReactiveQPController.get_cost_expr
        ⟨⟨"w2", 2, none, [], 0, none⟩, [1, 1], [], []⟩) 1 0 = 0
    ∧ Mat.entry (ReactiveQPController.get_cost_expr
        ⟨⟨"w2", 2, none, [], 0, none⟩, [1, 1], [], []⟩) 1 1 = 1 / 1000 := by
  have T := claim_C2 ⟨"w2", 2, none, [], 0, none⟩ [1, 1] [] [] rfl rfl rfl
  refine ⟨T.1, T.2.1, ?_, ?_, ?_, ?_⟩ <;>
    · rw [T.2.2.2 _ _ (by decide) (by decide)]
      norm_num [spec_cost_entry, weight_shifter]


section ShapeLemmas

lemma vecNeg_length (a : Vec) : (vecNeg a).length = a.length :=
  List.length_map a _

lemma vecAdd_length (a b : Vec) :
    (vecAdd a b).length = min a.length b.length :=
  List.length_zipWith _ _ _

lemma vecSub_length (a b : Vec) :
    (vecSub a b).length = min a.length b.length :=
  List.length_zipWith _ _ _

lemma horzcat2_length (A B : Mat) :
    (horzcat2 A B).length = min A.length B.length :=
  List.length_zipWith _ _ _

lemma horzcat2_rows (a b : Nat) :
    ∀ (A B : Mat), (∀ r ∈ A, r.length = a) → (∀ r ∈ B, r.length = b) →
      ∀ r ∈ horzcat2 A B, r.length = a + b := by
  intro A
  induction A with
  | nil => intro B _ _ r hr; simp [horzcat2] at hr
  | cons x xs ih =>
      intro B hA hB r hr
      cases B with
      | nil => simp [horzcat2] at hr
      | cons y ys =>
          simp only [horzcat2, List.zipWith_cons_cons, List.mem_cons] at hr
          rcases hr with rfl | hr
          · rw [List.length_append, hA x (by simp), hB y (by simp)]
          · exact ih ys (fun q hq => hA q (by simp [hq]))
              (fun q hq => hB q (by simp [hq])) r hr

lemma zerosMat_length (r c : Nat) : (zerosMat r c).length = r :=
  List.length_replicate r _

lemma zerosMat_rows (r c : Nat) :
    ∀ row ∈ zerosMat r c, row.length = c := by
  intro row hrow
  rw [List.eq_of_mem_replicate hrow]
  exact List.length_replicate c _

lemma slackMat_length (k n ind : Nat) : (slackMat k n ind).length = k := by
  simp [slackMat]

lemma slackMat_rows (k n ind : Nat) :
    ∀ row ∈ slackMat k n ind, row.length = n := by
  intro row hrow
  simp only [slackMat, List.mem_map, List.mem_range] at hrow
  rcases hrow with ⟨i, _, rfl⟩
  simp

lemma cnstr_expr_base_shape (vv : Option Nat) (nrob : Nat) (c : Constraint)
    (h : Constraint.WF nrob (optDim vv) c) :
    (cnstr_expr_base vv c).length = c.rows
    ∧ ∀ r ∈ cnstr_expr_base vv c, r.length = nrob + optDim vv := by
  obtain ⟨h1, h2, h3, h4, -, -⟩ := h
  cases vv with
  | none =>
      refine ⟨h1, ?_⟩
      intro r hr
      rw [h2 r hr]
      simp [optDim]
  | some d =>
      constructor
      · rw [cnstr_expr_base, horzcat2_length, h1, h3, Nat.min_self]
      · exact horzcat2_rows nrob d c.jac_robot c.jac_virtual h2 h4

lemma lb_expr_length (nrob nvirt : Nat) (c : Constraint)
    (h : Constraint.WF nrob nvirt c) : (lb_expr c).length = c.rows := by
  obtain ⟨-, -, -, -, h5, h6⟩ := h
  unfold lb_expr
  cases hk : c.kind with
  | equality g =>
      rw [vecAdd_length, vecNeg_length, vecNeg_length, h5, smul_length]
      simp only [Constraint.rows]
      omega
  | setC g mn mx =>
      rw [hk] at h6
      rw [vecAdd_length, vecNeg_length, h5, smul_length, vecSub_length,
        h6.1]
      simp only [Constraint.rows]
      omega
  | velocityEquality t =>
      rw [hk] at h6
      rw [vecAdd_length, vecNeg_length, h5, h6, Nat.min_self]
  | velocitySet mn mx =>
      rw [hk] at h6
      rw [vecAdd_length, vecNeg_length, h5, h6.1, Nat.min_self]

lemma ub_expr_length (nrob nvirt : Nat) (c : Constraint)
    (h : Constraint.WF nrob nvirt c) : (ub_expr c).length = c.rows := by
  obtain ⟨-, -, -, -, h5, h6⟩ := h
  unfold ub_expr
  cases hk : c.kind with
  | equality g =>
      rw [vecAdd_length, vecNeg_length, vecNeg_length, h5, smul_length]
      simp only [Constraint.rows]
      omega
  | setC g mn mx =>
      rw [hk] at h6
      rw [vecAdd_length, vecNeg_length, h5, smul_length, vecSub_length,
        h6.2]
      simp only [Constraint.rows]
      omega
  | velocityEquality t =>
      rw [hk] at h6
      rw [vecAdd_length, vecNeg_length, h5, h6, Nat.min_self]
  | velocitySet mn mx =>
      rw [hk] at h6
      rw [vecAdd_length, vecNeg_length, h5, h6.2, Nat.min_self]

lemma assembleBlocks_cons (vv : Option Nat) (ns : Nat) (c : Constraint)
    (rest : List Constraint) (ind : Nat) :
    assembleBlocks vv ns (c :: rest) ind =
      ((if ns > 0 then
          if c.constraint_type = "soft" then
            horzcat2 (cnstr_expr_base vv c)
              (slackMat c.expression.length ns ind)
          else
            horzcat2 (cnstr_expr_base vv c)
              (zerosMat c.expression.length ns)
        else cnstr_expr_base vv c)
          :: (assembleBlocks vv ns rest
              (if ns > 0 ∧ c.constraint_type = "soft" then
                ind + c.expression.length
              else ind)).1,
        lb_expr c
          :: (assembleBlocks vv ns rest
              (if ns > 0 ∧ c.constraint_type = "soft" then
                ind + c.expression.length
              else ind)).2.1,
        ub_expr c
          :: (assembleBlocks vv ns rest
              (if ns > 0 ∧ c.constraint_type = "soft" then
                ind + c.expression.length
              else ind)).2.2) := rfl

lemma assembleBlocks_shape (vv : Option Nat) (ns nrob : Nat) :
    ∀ (l : List Constraint) (ind : Nat),
      (∀ c ∈ l, Constraint.WF nrob (optDim vv) c) →
      ((assembleBlocks vv ns l ind).1.flatten.length
          = (l.map Constraint.rows).sum
        ∧ ∀ row ∈ (assembleBlocks vv ns l ind).1.flatten,
            row.length = nrob + optDim vv + ns) := by
  intro l
  induction l with
  | nil => intro ind _; exact ⟨rfl, by simp [assembleBlocks]⟩
  | cons c rest ih =>
      intro ind hwf
      have hc := hwf c (by simp)
      have hbase := cnstr_expr_base_shape vv nrob c hc
      have hrest := fun ind' => ih ind' (fun c' hc' => hwf c' (by simp [hc']))
      rw [assembleBlocks_cons]
      by_cases hns : ns > 0
      · by_cases hsoft : c.constraint_type = "soft"
        · rw [if_pos hns, if_pos hsoft]
          constructor
          · simp only [List.flatten_cons, List.length_append,
              List.map_cons, List.sum_cons]
            rw [(hrest _).1, horzcat2_length, hbase.1, slackMat_length]
            simp only [Constraint.rows]
            omega
          · intro row hrow
            simp only [List.flatten_cons] at hrow
            rcases List.mem_append.1 hrow with hrow | hrow
            · exact horzcat2_rows _ ns _ _ hbase.2
                (slackMat_rows c.expression.length ns ind) row hrow
            · exact (hrest _).2 row hrow
        · rw [if_pos hns, if_neg hsoft]
          constructor
          · simp only [List.flatten_cons, List.length_append,
              List.map_cons, List.sum_cons]
            rw [(hrest _).1, horzcat2_length, hbase.1, zerosMat_length]
            simp only [Constraint.rows]
            omega
          · intro row hrow
            simp only [List.flatten_cons] at hrow
            rcases List.mem_append.1 hrow with hrow | hrow
            · exact horzcat2_rows _ ns _ _ hbase.2
                (zerosMat_rows c.expression.length ns) row hrow
            · exact (hrest _).2 row hrow
      · have hns0 : ns = 0 := by omega
        rw [if_neg hns]
        constructor
        · simp only [List.flatten_cons, List.length_append,
            List.map_cons, List.sum_cons]
          rw [(hrest _).1, hbase.1]
        · intro row hrow
          simp only [List.flatten_cons] at hrow
          rcases List.mem_append.1 hrow with hrow | hrow
          · rw [hbase.2 row hrow, hns0]
            omega
          · exact (hrest _).2 row hrow

lemma bounds_length (vv : Option Nat) (ns nrob : Nat)
    (l : List Constraint) (ind : Nat)
    (hwf : ∀ c ∈ l, Constraint.WF nrob (optDim vv) c) :
    (assembleBlocks vv ns l ind).2.1.flatten.length
        = (l.map Constraint.rows).sum
    ∧ (assembleBlocks vv ns l ind).2.2.flatten.length
        = (l.map Constraint.rows).sum := by
  rw [assembleBlocks_lb, assembleBlocks_ub]
  constructor
  · rw [List.length_flatten, List.map_map]
    congr 1
    exact List.map_congr_left
      (fun c hc => lb_expr_length nrob (optDim vv) c (hwf c hc))
  · rw [List.length_flatten, List.map_map]
    congr 1
    exact List.map_congr_left
      (fun c hc => ub_expr_length nrob (optDim vv) c (hwf c hc))

end ShapeLemmas

/-- Claim C3: for every skill specification, the assembled constraint
matrix `A` has `n_robot_var + n_virtual_var + n_slack_var` columns and
one row per constraint-expression row, the total row count being the sum
of the constraints' row dimensions, and the lower and upper bound
vectors have that same row count. -/
theorem claim_C3 (label : String) (nrob : Nat) (vv : Option Nat)
    (l : List Constraint)
    (hwf : ∀ c ∈ l, Constraint.WF nrob (optDim vv) c) :
    (get_constraints_expr (mkSkill label nrob vv l)).1.length =
      (l.map Constraint.rows).sum
    ∧ (∀ row ∈ (get_constraints_expr (mkSkill label nrob vv l)).1,
        row.length = nrob + (mkSkill label nrob vv l).n_virtual_var
          + (mkSkill label nrob vv l).n_slack_var)
    ∧ (get_constraints_expr (mkSkill label nrob vv l)).2.1.length =
        (l.map Constraint.rows).sum
    ∧ (get_constraints_expr (mkSkill label nrob vv l)).2.2.length =
        (l.map Constraint.rows).sum := by
  have hmem : ∀ c ∈ sortedConstraints l, Constraint.WF nrob (optDim vv) c :=
    fun c hc => hwf c ((List.mergeSort_perm l _).mem_iff.1 hc)
  have hsum : ((sortedConstraints l).map Constraint.rows).sum =
      (l.map Constraint.rows).sum :=
    List.Perm.sum_eq (List.Perm.map _ (List.mergeSort_perm l _))
  have hnv : (mkSkill label nrob vv l).n_virtual_var = optDim vv := by
    cases vv <;> rfl
  have hshape := assembleBlocks_shape vv
    (mkSkill label nrob vv l).n_slack_var nrob (sortedConstraints l) 0 hmem
  have hbounds := bounds_length vv
    (mkSkill label nrob vv l).n_slack_var nrob (sortedConstraints l) 0 hmem
  refine ⟨?_, ?_, ?_, ?_⟩
  · show (assembleBlocks vv _ (sortedConstraints l) 0).1.flatten.length = _
    rw [hshape.1, hsum]
  · intro row hrow
    rw [hnv]
    exact hshape.2 row hrow
  · show (assembleBlocks vv _ (sortedConstraints l) 0).2.1.flatten.length = _
    rw [hbounds.1, hsum]
  · show (assembleBlocks vv _ (sortedConstraints l) 0).2.2.flatten.length = _
    rw [hbounds.2, hsum]

/-- Claim C3 witness: a one-robot-variable, one-virtual-variable skill
with a single well-formed soft equality constraint satisfies the shape
invariant. -/
theorem claim_C3_witness :
    (∀ c ∈ [(⟨"c", 0, "soft", [0], [[2]], [[3]], [0],
        ConstraintKind.equality 1⟩ : Constraint)],
      Constraint.WF 1 (optDim (some 1)) c)
    ∧ ((get_constraints_expr (mkSkill "w" 1 (some 1)
        [⟨"c", 0, "soft", [0], [[2]], [[3]], [0],
           ConstraintKind.equality 1⟩])).1.length =
      (([(⟨"c", 0, "soft", [0], [[2]], [[3]], [0],
          ConstraintKind.equality 1⟩ : Constraint)]).map
        Constraint.rows).sum
    ∧ (∀ row ∈ (get_constraints_expr (mkSkill "w" 1 (some 1)
        [⟨"c", 0, "soft", [0], [[2]], [[3]], [0],
           ConstraintKind.equality 1⟩])).1,
        row.length = 1 + (mkSkill "w" 1 (some 1)
          [⟨"c", 0, "soft", [0], [[2]], [[3]], [0],
             ConstraintKind.equality 1⟩]).n_virtual_var
          + (mkSkill "w" 1 (some 1)
          [⟨"c", 0, "soft", [0], [[2]], [[3]], [0],
             ConstraintKind.equality 1⟩]).n_slack_var)
    ∧ (get_constraints_expr (mkSkill "w" 1 (some 1)
        [⟨"c", 0, "soft", [0], [[2]], [[3]], [0],
           ConstraintKind.equality 1⟩])).2.1.length =
        (([(⟨"c", 0, "soft", [0], [[2]], [[3]], [0],
            ConstraintKind.equality 1⟩ : Constraint)]).map
          Constraint.rows).sum
    ∧ (get_constraints_expr (mkSkill "w" 1 (some 1)
        [⟨"c", 0, "soft", [0], [[2]], [[3]], [0],
           ConstraintKind.equality 1⟩])).2.2.length =
        (([(⟨"c", 0, "soft", [0], [[2]], [[3]], [0],
            ConstraintKind.equality 1⟩ : Constraint)]).map
          Constraint.rows).sum) :=
  ⟨by decide, claim_C3 "w" 1 (some 1) _ (by decide)⟩


section SlackLemmas

lemma softRows_cons (c : Constraint) (rest : List Constraint) :
    softRows (c :: rest) =
      (if c.constraint_type = "soft" then c.rows else 0) + softRows rest := by
  simp [softRows]

lemma softRows_eq_filter_sum (l : List Constraint) :
    softRows l =
      ((l.filter (fun c => c.constraint_type = "soft")).map
        Constraint.rows).sum := by
  induction l with
  | nil => rfl
  | cons c rest ih =>
      by_cases h : c.constraint_type = "soft" <;>
        simp [softRows_cons, h, ih]

lemma slackTotal_eq_softRows (l : List Constraint) :
    slackTotal l = softRows l := by
  rw [slackTotal_eq_sum, softRows_eq_filter_sum]

lemma soft_rows_before_zero (l : List Constraint) :
    soft_rows_before l 0 = 0 := rfl

lemma soft_rows_before_cons (c : Constraint) (rest : List Constraint)
    (i : Nat) :
    soft_rows_before (c :: rest) (i + 1) =
      (if c.constraint_type = "soft" then c.rows else 0)
        + soft_rows_before rest i := by
  unfold soft_rows_before
  rw [List.take_succ_cons]
  by_cases h : c.constraint_type = "soft" <;> simp [h]

lemma range_map_zero (m : Nat) :
    (List.range m).map (fun _ => (0 : ℚ)) = List.replicate m 0 := by
  induction m with
  | zero => rfl
  | succ k ih => simp [List.range_succ, ih, List.replicate_succ']

lemma range_map_ite_neg (p : Nat) :
    ∀ (n : Nat), p < n →
      (List.range n).map (fun j => if j = p then (-1 : ℚ) else 0) =
        List.replicate p 0
          ++ (-1 : ℚ) :: List.replicate (n - p - 1) 0 := by
  induction p with
  | zero =>
      intro n hp
      cases n with
      | zero => omega
      | succ m =>
          rw [List.range_succ_eq_map, List.map_cons, List.map_map]
          have h1 : ((fun j => if j = 0 then (-1 : ℚ) else 0) ∘ Nat.succ)
              = (fun _ => (0 : ℚ)) := by
            funext j
            simp
          rw [h1, range_map_zero]
          simp
  | succ p ihp =>
      intro n hp
      cases n with
      | zero => omega
      | succ m =>
          rw [List.range_succ_eq_map, List.map_cons, List.map_map]
          have h1 : ((fun j => if j = p + 1 then (-1 : ℚ) else 0) ∘ Nat.succ)
              = (fun j => if j = p then (-1 : ℚ) else 0) := by
            funext j
            by_cases h : j = p <;> simp [h]
          rw [h1, ihp m (by omega)]
          have harith : m - p - 1 = m + 1 - (p + 1) - 1 := by omega
          rw [harith]
          simp [List.replicate_succ]

lemma slackMat_eq_spec_block (c : Constraint) (ns ind : Nat)
    (hsoft : c.constraint_type = "soft") (hfit : ind + c.rows ≤ ns) :
    slackMat c.expression.length ns ind = spec_slack_block ns ind c := by
  unfold slackMat spec_slack_block
  rw [if_pos hsoft]
  apply List.map_congr_left
  intro i hi
  rw [List.mem_range] at hi
  rw [range_map_ite_neg (ind + i) ns (by simp only [Constraint.rows] at hfit; omega),
    range_map_ite_neg i c.rows (by simpa [Constraint.rows] using hi)]
  have harith : ns - (ind + i) - 1 =
      (c.rows - i - 1) + (ns - ind - c.rows) := by
    simp only [Constraint.rows] at hfit ⊢
    omega
  rw [harith, List.replicate_add]
  simp [List.append_assoc, List.replicate_add,
    ← List.append_replicate_replicate]

lemma horzcat2_empty_cols (A : Mat) :
    ∀ k, A.length ≤ k →
      horzcat2 A (List.replicate k ([] : List ℚ)) = A := by
  induction A with
  | nil => intro k _; simp [horzcat2]
  | cons r rs ih =>
      intro k hk
      cases k with
      | zero => simp at hk
      | succ k' =>
          simp only [List.replicate_succ, horzcat2,
            List.zipWith_cons_cons, List.append_nil]
          rw [show List.zipWith (· ++ ·) rs (List.replicate k' []) =
              horzcat2 rs (List.replicate k' []) from rfl,
            ih k' (by simpa using hk)]

lemma assembleBlocks_cons_fst (vv : Option Nat) (ns : Nat) (c : Constraint)
    (rest : List Constraint) (ind : Nat) :
    (assembleBlocks vv ns (c :: rest) ind).1 =
      (if ns > 0 then
          if c.constraint_type = "soft" then
            horzcat2 (cnstr_expr_base vv c)
              (slackMat c.expression.length ns ind)
          else
            horzcat2 (cnstr_expr_base vv c)
              (zerosMat c.expression.length ns)
        else cnstr_expr_base vv c)
        :: (assembleBlocks vv ns rest
            (if ns > 0 ∧ c.constraint_type = "soft" then
              ind + c.expression.length
            else ind)).1 := rfl

lemma assembleBlocks_fst_spec (vv : Option Nat) (ns nrob : Nat) :
    ∀ (l : List Constraint) (ind : Nat),
      (∀ c ∈ l, Constraint.WF nrob (optDim vv) c) →
      (ind + softRows l ≤ ns ∨ (ns = 0 ∧ softRows l = 0)) →
      (assembleBlocks vv ns l ind).1 =
        List.zipWith
          (fun i c =>
            horzcat2 (cnstr_expr_base vv c)
              (spec_slack_block ns (ind + soft_rows_before l i) c))
          (List.range l.length) l := by
  intro l
  induction l with
  | nil => intro ind _ _; rfl
  | cons c rest ih =>
      intro ind hwf hfit
      have hc := hwf c (by simp)
      have hbase := cnstr_expr_base_shape vv nrob c hc
      rw [assembleBlocks_cons_fst]
      rw [List.length_cons, List.range_succ_eq_map, List.zipWith_cons_cons,
        List.zipWith_map_left]
      have hfun : (fun (i : Nat) (c' : Constraint) =>
          horzcat2 (cnstr_expr_base vv c')
            (spec_slack_block ns
              (ind + soft_rows_before (c :: rest) (Nat.succ i)) c'))
          = (fun (i : Nat) (c' : Constraint) =>
          horzcat2 (cnstr_expr_base vv c')
            (spec_slack_block ns
              ((if ns > 0 ∧ c.constraint_type = "soft" then
                  ind + c.expression.length
                else ind) + soft_rows_before rest i) c')) := by
        funext i c'
        rw [soft_rows_before_cons]
        have hoff : ind + ((if c.constraint_type = "soft" then c.rows else 0)
              + soft_rows_before rest i)
            = (if ns > 0 ∧ c.constraint_type = "soft" then
                ind + c.expression.length
              else ind) + soft_rows_before rest i := by
          by_cases hsoft : c.constraint_type = "soft"
          · by_cases hns : ns > 0
            · rw [if_pos hsoft, if_pos
                (show ns > 0 ∧ c.constraint_type = "soft" from ⟨hns, hsoft⟩)]
              simp only [Constraint.rows]
              omega
            · have hns0 : ns = 0 := by omega
              have hsr : softRows (c :: rest) = 0 := by
                rcases hfit with h | h
                · omega
                · exact h.2
              have hrows0 : c.rows = 0 := by
                rw [softRows_cons, if_pos hsoft] at hsr
                omega
              rw [if_pos hsoft,
                if_neg (show ¬(ns > 0 ∧ c.constraint_type = "soft") from
                  fun hcon => hns hcon.1), hrows0]
              omega
          · rw [if_neg hsoft,
              if_neg (show ¬(ns > 0 ∧ c.constraint_type = "soft") from
                fun hcon => hsoft hcon.2)]
            omega
        rw [hoff]
      rw [hfun]
      congr 1
      · -- the head block
        by_cases hns : ns > 0
        · by_cases hsoft : c.constraint_type = "soft"
          · rw [if_pos hns, if_pos hsoft]
            rw [soft_rows_before_zero, Nat.add_zero,
              slackMat_eq_spec_block c ns ind hsoft
                (by
                  rcases hfit with h | h
                  · rw [softRows_cons, if_pos hsoft] at h
                    omega
                  · omega)]
          · rw [if_pos hns, if_neg hsoft]
            rw [soft_rows_before_zero, Nat.add_zero]
            unfold spec_slack_block
            rw [if_neg hsoft]
            rfl
        · have hns0 : ns = 0 := by omega
          have hsr0 : softRows (c :: rest) = 0 := by
            rcases hfit with h | h
            · omega
            · exact h.2
          rw [if_neg hns, soft_rows_before_zero, Nat.add_zero]
          by_cases hsoft : c.constraint_type = "soft"
          · have hrows0 : c.rows = 0 := by
              rw [softRows_cons, if_pos hsoft] at hsr0
              omega
            have hbase0 : cnstr_expr_base vv c = [] := by
              rw [← List.length_eq_zero, hbase.1, hrows0]
            unfold spec_slack_block
            rw [if_pos hsoft, hrows0]
            simp [hbase0, horzcat2]
          · unfold spec_slack_block
            rw [if_neg hsoft, hns0]
            exact (horzcat2_empty_cols (cnstr_expr_base vv c) c.rows
              (by rw [hbase.1])).symm
      · -- the tail
        apply ih
        · exact fun c' hc' => hwf c' (by simp [hc'])
        · rcases hfit with h | h
          · left
            rw [softRows_cons] at h
            by_cases hcond : ns > 0 ∧ c.constraint_type = "soft"
            · rw [if_pos hcond]
              rw [if_pos hcond.2] at h
              simp only [Constraint.rows] at h
              omega
            · rw [if_neg hcond]
              by_cases hsoft : c.constraint_type = "soft"
              · rw [if_pos hsoft] at h
                omega
              · rw [if_neg hsoft] at h
                omega
          · right
            rw [softRows_cons] at h
            refine ⟨h.1, by omega⟩

end SlackLemmas

/-- Claim C4: whenever a skill has a soft constraint, every constraint's
row block in `A` carries `n_slack_var` slack columns; a soft constraint
with `k` rows gets `-Identity(k)` in its own contiguous reserved column
range, which starts right after the cumulative row count of the soft
constraints appearing earlier in the ordered sequence, and every other
position of the slack columns, in particular every row of a hard
constraint, is zero. -/
theorem claim_C4 (label : String) (nrob : Nat) (vv : Option Nat)
    (l : List Constraint)
    (hwf : ∀ c ∈ l, Constraint.WF nrob (optDim vv) c)
    (_hsoft : ∃ c ∈ l, c.constraint_type = "soft") :
    (get_constraints_expr (mkSkill label nrob vv l)).1 =
      spec_A vv (mkSkill label nrob vv l).n_slack_var
        (mkSkill label nrob vv l).constraints := by
  have hmem : ∀ c ∈ sortedConstraints l, Constraint.WF nrob (optDim vv) c :=
    fun c hc => hwf c ((List.mergeSort_perm l _).mem_iff.1 hc)
  have hfit : (0 : Nat) + softRows (sortedConstraints l)
        ≤ slackTotal (sortedConstraints l)
      ∨ (slackTotal (sortedConstraints l) = 0
        ∧ softRows (sortedConstraints l) = 0) := by
    left
    rw [slackTotal_eq_softRows]
    omega
  show (assembleBlocks vv (slackTotal (sortedConstraints l))
      (sortedConstraints l) 0).1.flatten
    = spec_A vv (slackTotal (sortedConstraints l)) (sortedConstraints l)
  rw [assembleBlocks_fst_spec vv (slackTotal (sortedConstraints l)) nrob
    (sortedConstraints l) 0 hmem hfit]
  unfold spec_A
  have hzero : (fun (i : Nat) (c' : Constraint) =>
      horzcat2 (cnstr_expr_base vv c')
        (spec_slack_block (slackTotal (sortedConstraints l))
          (0 + soft_rows_before (sortedConstraints l) i) c'))
      = (fun (i : Nat) (c' : Constraint) =>
      horzcat2 (cnstr_expr_base vv c')
        (spec_slack_block (slackTotal (sortedConstraints l))
          (soft_rows_before (sortedConstraints l) i) c')) := by
    funext i c'
    rw [Nat.zero_add]
  rw [hzero]

/-- Claim C4 witness: a skill with one soft and one hard one-row
constraint satisfies the slack column layout. -/
theorem claim_C4_witness :
    (∃ c ∈ [(⟨"s", 0, "soft", [0], [[1]], [[]], [0],
        ConstraintKind.equality 1⟩ : Constraint),
      ⟨"h", 1, "hard", [0], [[2]], [[]], [0],
        ConstraintKind.velocitySet [0] [1]⟩],
      c.constraint_type = "soft")
    ∧ (get_constraints_expr (mkSkill "w" 1 none
        [⟨"s", 0, "soft", [0], [[1]], [[]], [0],
           ConstraintKind.equality 1⟩,
         ⟨"h", 1, "hard", [0], [[2]], [[]], [0],
           ConstraintKind.velocitySet [0] [1]⟩])).1 =
      spec_A none (mkSkill "w" 1 none
        [⟨"s", 0, "soft", [0], [[1]], [[]], [0],
           ConstraintKind.equality 1⟩,
         ⟨"h", 1, "hard", [0], [[2]], [[]], [0],
           ConstraintKind.velocitySet [0] [1]⟩]).n_slack_var
        (mkSkill "w" 1 none
        [⟨"s", 0, "soft", [0], [[1]], [[]], [0],
           ConstraintKind.equality 1⟩,
         ⟨"h", 1, "hard", [0], [[2]], [[]], [0],
           ConstraintKind.velocitySet [0] [1]⟩]).constraints :=
  ⟨by decide, claim_C4 "w" 1 none _ (by decide) (by decide)⟩

end Casclik
